import Mathlib

/-!
Shallow embedding of the chunking / embedding / retrieval core of the
halsaveda-copilot repository (backend/vectordb), together with proofs of
the specification's testable properties.

Python strings are modelled as lists of characters (`Str`), dictionaries
as structures whose optional keys become `Option` fields, provider calls
as explicit function parameters returning `Option` / `Except`, and
exceptions as `Except` results.
-/

namespace HalsaVeda

/-- Python `str`, modelled as its list of characters (code points). -/
abbrev Str := List Char

/-- Helper for `pyWords`: walks the remaining characters carrying the word
accumulated so far (in reverse).  Runs of whitespace separate words and
produce no empty words, as in Python `str.split()` with no argument. -/
def wordsAux : Str → Str → List Str
  | [], [] => []
  | [], acc => [acc.reverse]
  | c :: cs, acc =>
    if c.isWhitespace then
      match acc with
      | [] => wordsAux cs []
      | _ :: _ => acc.reverse :: wordsAux cs []
    else wordsAux cs (c :: acc)

/-- Python `text.split()` (whitespace splitting, no empty tokens). -/
def pyWords (s : Str) : List Str := wordsAux s []

/-- Model of `SemanticChunker.word_count` / the `len(text.split())` idiom:
number of whitespace-delimited words of a string. -/
def word_count (s : Str) : Nat := (pyWords s).length

/-- Python `' '.join(parts)`. -/
def joinSp : List Str → Str
  | [] => []
  | [p] => p
  | p :: ps => p ++ ' ' :: joinSp ps

theorem joinSp_cons_cons (p q : Str) (ps : List Str) :
    joinSp (p :: q :: ps) = p ++ ' ' :: joinSp (q :: ps) := rfl

/-- Splitting across an explicit separating space: the words of
`a ++ ' ' :: b` are the words of `a` followed by the words of `b`. -/
theorem wordsAux_append_space (a : Str) (b : Str) :
    ∀ acc : Str, wordsAux (a ++ ' ' :: b) acc = wordsAux a acc ++ wordsAux b [] := by
  induction a with
  | nil =>
    intro acc
    cases acc with
    | nil => simp [wordsAux]
    | cons c acc' => simp [wordsAux]
  | cons c a ih =>
    intro acc
    by_cases hc : c.isWhitespace
    · cases acc with
      | nil => simp [wordsAux, hc, ih]
      | cons d acc' => simp [wordsAux, hc, ih]
    · simp [wordsAux, hc, ih]

theorem pyWords_append_space (a b : Str) :
    pyWords (a ++ ' ' :: b) = pyWords a ++ pyWords b := by
  simpa [pyWords] using wordsAux_append_space a b []

/-- Word counts add up across `' '.join`: the join of a list of paragraphs
has exactly the sum of the paragraphs' word counts. -/
theorem word_count_joinSp (parts : List Str) :
    word_count (joinSp parts) = (parts.map word_count).sum := by
  induction parts with
  | nil => simp [joinSp, word_count, pyWords, wordsAux]
  | cons p ps ih =>
    cases ps with
    | nil => simp [joinSp, word_count]
    | cons q ps' =>
      have h := ih
      simp only [joinSp_cons_cons, word_count, pyWords_append_space, List.length_append,
        List.map_cons, List.sum_cons] at h ⊢
      omega

/-! ## Legacy fixed chunker (`backend/vectordb/chunker.py`, class `TextChunker`) -/

/-- A chunk produced by `TextChunker.chunk_text`.  The `metadata` dict is an
opaque pass-through value in the source; it is modelled as an association
list carried unchanged. -/
structure TChunk where
  text : Str
  chunk_index : Nat
  word_count : Nat
  metadata : List (Str × Str)
deriving DecidableEq, Repr

/-- State of `TextChunker`: the two window parameters set by `__init__`. -/
structure TextChunker where
  chunk_size : Nat
  chunk_overlap : Nat
deriving DecidableEq, Repr

/-- Model of `TextChunker.__init__(chunk_size, chunk_overlap)`: stores both parameters.
The source performs no validation of any kind, so construction is total. -/
def TextChunker.init (chunk_size chunk_overlap : Nat) : TextChunker :=
  ⟨chunk_size, chunk_overlap⟩

/-- The body of the `for i in range(0, len(words), stride)` loop of
`chunk_text` for a positive stride `s`: emit the window `words[i : i+cs]`,
then stop as soon as `i + cs ≥ len(words)` (the `break`), else continue at
`i + s`.  Because `s ≤ cs` at every call site (`s = cs - co`), the `break`
always fires no later than the range's own bound, so the range bound never
terminates the loop first. -/
def chunkLoop (cs s : Nat) (md : List (Str × Str)) (ws : List Str) (i idx : Nat) :
    List TChunk :=
  let cw := (ws.drop i).take cs
  let c : TChunk := ⟨joinSp cw, idx, cw.length, md⟩
  if h : 0 < s ∧ i + cs < ws.length then
    c :: chunkLoop cs s md ws (i + s) (idx + 1)
  else
    [c]
termination_by ws.length - i
decreasing_by omega

/-- Model of `TextChunker.chunk_text(text, metadata)`.  Python's `range` raises
`ValueError` for a zero step and yields no iterations for a negative step,
so a zero stride is an exception at call time and a negative stride an
empty result; otherwise the loop runs iff the text has at least one word. -/
def TextChunker.chunk_text (c : TextChunker) (text : Str)
    (metadata : Option (List (Str × Str))) : Except String (List TChunk) :=
  let ws := pyWords text
  let md := metadata.getD []
  let stride : Int := (c.chunk_size : Int) - (c.chunk_overlap : Int)
  if stride = 0 then
    Except.error "range() arg 3 must not be zero"
  else if stride < 0 then
    Except.ok []
  else if ws.length = 0 then
    Except.ok []
  else
    Except.ok (chunkLoop c.chunk_size (c.chunk_size - c.chunk_overlap) md ws 0 0)

/-- Length of the loop output: starting at `i` with the invariant
`i + co < len(words)` and `co < cs`, the loop emits
`⌈(len − i − co) / (cs − co)⌉` chunks. -/
theorem chunkLoop_length (cs co : Nat) (hco : co < cs) (md : List (Str × Str))
    (ws : List Str) :
    ∀ i idx, i + co < ws.length →
      (chunkLoop cs (cs - co) md ws i idx).length =
        (ws.length - i - co + (cs - co) - 1) / (cs - co) := by
  intro i idx hi
  have hs : 0 < cs - co := by omega
  rw [chunkLoop]
  by_cases hcont : i + cs < ws.length
  · have hrec := chunkLoop_length cs co hco md ws (i + (cs - co)) (idx + 1) (by omega)
    simp only [hs, hcont, and_true, true_and, dif_pos, List.length_cons]
    rw [hrec]
    have ha : ws.length - i - co + (cs - co) - 1 =
        (ws.length - (i + (cs - co)) - co + (cs - co) - 1) + (cs - co) := by omega
    rw [ha, Nat.add_div_right _ hs]
  · have : ¬ (0 < cs - co ∧ i + cs < ws.length) := by omega
    simp only [this, dif_neg, not_false_iff, List.length_cons, List.length_nil]
    have h1 : 1 ≤ ws.length - i - co := by omega
    have h2 : ws.length - i - co ≤ cs - co := by omega
    have : (ws.length - i - co + (cs - co) - 1) / (cs - co) = 1 := by
      apply Nat.div_eq_of_lt_le <;> omega
    omega
termination_by i => ws.length - i
decreasing_by omega

/-- C3 (amended): for `overlap < chunk_size` (stride `s = chunk_size − overlap > 0`),
`chunk_text` on a text of `N` words returns `⌈(N − overlap)/s⌉` chunks when
`N > overlap`, exactly one chunk when `0 < N ≤ overlap`, and — unlike the
original claim — zero chunks (not one) when `N = 0`. -/
theorem chunk_text_count (cs co : Nat) (h : co < cs) (text : Str) :
    ∃ l, (TextChunker.init cs co).chunk_text text none = Except.ok l ∧
      ((pyWords text).length = 0 → l.length = 0) ∧
      (0 < (pyWords text).length → (pyWords text).length ≤ co → l.length = 1) ∧
      (co < (pyWords text).length →
        l.length = ((pyWords text).length - co + (cs - co) - 1) / (cs - co)) := by
  have hz : ¬ ((cs : Int) - (co : Int) = 0) := by omega
  have hneg : ¬ ((cs : Int) - (co : Int) < 0) := by omega
  by_cases hN : (pyWords text).length = 0
  · refine ⟨[], ?_, fun _ => rfl, by omega, by omega⟩
    simp [TextChunker.chunk_text, TextChunker.init, hz, hneg, hN]
  · refine ⟨chunkLoop cs (cs - co) [] (pyWords text) 0 0, ?_, ?_, ?_, ?_⟩
    · simp [TextChunker.chunk_text, TextChunker.init, hz, hneg, hN]
    · intro h0; exact absurd h0 hN
    · intro _ hle
      rw [chunkLoop]
      have hstop : ¬ (0 < cs - co ∧ 0 + cs < (pyWords text).length) := by omega
      rw [dif_neg hstop]
      rfl
    · intro hgt
      have := chunkLoop_length cs co h [] (pyWords text) 0 0 (by omega)
      simpa using this

/-- C3 (counterexample): on the empty text (`N = 0` words) `chunk_text`
with the claimed parameters `chunk_size = 300, chunk_overlap = 50` returns
an empty chunk list, not the single chunk the claim asserts. -/
theorem chunk_text_empty_counterexample :
    ¬ ∃ ch : TChunk, (TextChunker.init 300 50).chunk_text [] none =
      Except.ok [ch] := by
  rintro ⟨ch, hch⟩
  have heval : (TextChunker.init 300 50).chunk_text [] none =
      Except.ok ([] : List TChunk) := by rfl
  rw [heval] at hch
  simp at hch

/-- C3 (witness): a five-word text with `chunk_size = 3, chunk_overlap = 1`
satisfies `overlap < chunk_size`, and the count theorem applies. -/
theorem chunk_text_count_witness :
    1 < 3 ∧
    ∃ l, (TextChunker.init 3 1).chunk_text ("a b c d e".data) none = Except.ok l ∧
      ((pyWords ("a b c d e".data)).length = 0 → l.length = 0) ∧
      (0 < (pyWords ("a b c d e".data)).length →
        (pyWords ("a b c d e".data)).length ≤ 1 → l.length = 1) ∧
      (1 < (pyWords ("a b c d e".data)).length →
        l.length = ((pyWords ("a b c d e".data)).length - 1 + (3 - 1) - 1) / (3 - 1)) :=
  ⟨by omega, chunk_text_count 3 1 (by omega) ("a b c d e".data)⟩

/-- C4 (amended): `TextChunker.__init__` performs no validation: every
parameter pair constructs an object.  A non-positive stride surfaces only
when `chunk_text` is called: a zero stride raises `range`'s `ValueError`,
and a negative stride silently returns an empty chunk list. -/
theorem init_no_validation (cs co : Nat) :
    TextChunker.init cs co = { chunk_size := cs, chunk_overlap := co } ∧
    (co = cs → ∀ text, (TextChunker.init cs co).chunk_text text none =
      Except.error "range() arg 3 must not be zero") ∧
    (cs < co → ∀ text, (TextChunker.init cs co).chunk_text text none =
      Except.ok []) := by
  refine ⟨rfl, ?_, ?_⟩
  · intro heq text
    have hz : ((cs : Int) - (co : Int) = 0) := by omega
    simp [TextChunker.chunk_text, TextChunker.init, hz]
  · intro hlt text
    have hz : ¬ ((cs : Int) - (co : Int) = 0) := by omega
    have hneg : ((cs : Int) - (co : Int) < 0) := by omega
    simp [TextChunker.chunk_text, TextChunker.init, hz, hneg]

/-- C4 (counterexample): construction with `chunk_overlap ≥ chunk_size`
does not fail: it yields an ordinary object, and the misbehaviour appears
only at `chunk_text` time (exception for equal parameters, silent empty
output for a larger overlap). -/
theorem init_no_validation_counterexample :
    TextChunker.init 300 300 = { chunk_size := 300, chunk_overlap := 300 } ∧
    (TextChunker.init 300 300).chunk_text ("a b".data) none =
      Except.error "range() arg 3 must not be zero" ∧
    (TextChunker.init 300 400).chunk_text ("a b".data) none = Except.ok [] := by
  refine ⟨rfl, by rfl, by rfl⟩

/-- C4 (witness): the amended no-validation theorem applied at
`chunk_size = chunk_overlap = 300` on a concrete text. -/
theorem init_no_validation_witness :
    (TextChunker.init 300 300).chunk_text ("a b".data) none =
      Except.error "range() arg 3 must not be zero" :=
  (init_no_validation 300 300).2.1 rfl ("a b".data)

/-! ## Section-aware chunker (`backend/vectordb/semantic_chunker.py`) -/

/-- A chunk dict produced by `SemanticChunker`.  The `section_level` key is
present only on `section` chunks in the source, hence an `Option`. -/
structure SChunk where
  text : Str
  heading : Str
  section_level : Option Nat
  word_count : Nat
  chunk_type : String
deriving DecidableEq, Repr

/-- One entry of `document['structured_content']['sections']`. -/
structure Section where
  heading : Str
  level : Nat
  content : List Str
deriving DecidableEq, Repr

/-- The fields of a document dict read by `SemanticChunker`:
`content` (fallback path) and the optional `structured_content` dict,
whose `sections` list is modelled directly. -/
structure Document where
  content : Str
  structured_content : Option (List Section)
deriving DecidableEq, Repr

/-- State of `SemanticChunker` as set by `__init__(min_chunk_size, max_chunk_size)`. -/
structure SemanticChunker where
  min_chunk_size : Nat
  max_chunk_size : Nat
deriving DecidableEq, Repr

/-- The paragraph-packing loop of `split_long_section`: the two mutable
locals `current_chunk_paras` and `current_word_count` become the arguments
`cur` and `cnt`.  When adding the next paragraph would exceed the maximum
and the current chunk is non-empty, the current chunk is closed (re-prefixed
with the heading); remaining paragraphs are flushed at the end. -/
def splitAux (maxSize : Nat) (heading : Str) :
    List Str → List Str → Nat → List SChunk
  | [], cur, cnt =>
    match cur with
    | [] => []
    | _ :: _ => [⟨heading ++ '.' :: ' ' :: joinSp cur, heading, none, cnt, "section_part"⟩]
  | p :: ps, cur, cnt =>
    let pw := word_count p
    if maxSize < cnt + pw ∧ cur ≠ [] then
      ⟨heading ++ '.' :: ' ' :: joinSp cur, heading, none, cnt, "section_part"⟩ ::
        splitAux maxSize heading ps [p] pw
    else
      splitAux maxSize heading ps (cur ++ [p]) (cnt + pw)

/-- Model of `SemanticChunker.split_long_section(heading, paragraphs)`. -/
def split_long_section (c : SemanticChunker) (heading : Str)
    (paragraphs : List Str) : List SChunk :=
  splitAux c.max_chunk_size heading paragraphs [] 0

/-- The per-section body of the loop in `chunk_by_sections`: a section whose
joined content stays within `max_chunk_size` becomes one `section` chunk,
else it is handed to `split_long_section`. -/
def sectionChunks (c : SemanticChunker) (s : Section) : List SChunk :=
  let full := joinSp s.content
  if c.max_chunk_size < word_count full then
    split_long_section c s.heading s.content
  else
    [⟨s.heading ++ '.' :: ' ' :: full, s.heading, some s.level, word_count full, "section"⟩]

/-- The `for i in range(0, len(words), max_chunk_size)` loop of
`fallback_chunk` (non-overlapping windows). -/
def fallbackLoop (m : Nat) (ws : List Str) (i : Nat) : List SChunk :=
  if _h : 0 < m ∧ i < ws.length then
    ⟨joinSp ((ws.drop i).take m), "Content".data, none,
      ((ws.drop i).take m).length, "fallback"⟩ :: fallbackLoop m ws (i + m)
  else []
termination_by ws.length - i
decreasing_by omega

/-- Model of `SemanticChunker.fallback_chunk(document)`: fixed windows of
`max_chunk_size` words over `document['content']`. -/
def fallback_chunk (c : SemanticChunker) (doc : Document) : List SChunk :=
  fallbackLoop c.max_chunk_size (pyWords doc.content) 0

/-- Model of `SemanticChunker.chunk_by_sections(document)`. -/
def chunk_by_sections (c : SemanticChunker) (doc : Document) : List SChunk :=
  match doc.structured_content with
  | none => fallback_chunk c doc
  | some sections => (sections.map (sectionChunks c)).flatten

/-- Sum of emitted word counts in the packing loop: every processed
paragraph's words are counted exactly once. -/
theorem splitAux_wc_sum (maxSize : Nat) (heading : Str) :
    ∀ (ps cur : List Str) (cnt : Nat), (cur = [] → cnt = 0) →
      ((splitAux maxSize heading ps cur cnt).map SChunk.word_count).sum =
        cnt + (ps.map word_count).sum := by
  intro ps
  induction ps with
  | nil =>
    intro cur cnt hinv
    cases cur with
    | nil => simp [splitAux, hinv rfl]
    | cons q qs => simp [splitAux]
  | cons p ps ih =>
    intro cur cnt hinv
    rw [splitAux]
    by_cases hcl : maxSize < cnt + word_count p ∧ cur ≠ []
    · rw [if_pos hcl]
      have := ih [p] (word_count p) (by simp)
      simp only [List.map_cons, List.sum_cons, this]
    · rw [if_neg hcl]
      have := ih (cur ++ [p]) (cnt + word_count p) (by simp)
      simp only [List.map_cons, List.sum_cons, this]
      omega

/-- C6: the sum of `word_count` over all chunks returned by
`split_long_section` equals the total word count of the paragraphs — no
double-counting and no loss, including any single over-long paragraph that
is kept whole. -/
theorem split_long_section_wc_sum (c : SemanticChunker) (heading : Str)
    (paragraphs : List Str) :
    ((split_long_section c heading paragraphs).map SChunk.word_count).sum =
      (paragraphs.map word_count).sum := by
  simpa using splitAux_wc_sum c.max_chunk_size heading paragraphs [] 0 (fun _ => rfl)

/-- Every chunk closed by the packing loop has a positive word count, as
long as every pending paragraph has one and a non-empty current chunk has a
positive running count. -/
theorem splitAux_wc_pos (maxSize : Nat) (heading : Str) :
    ∀ (ps cur : List Str) (cnt : Nat),
      (∀ p ∈ ps, 0 < word_count p) → (cur ≠ [] → 0 < cnt) →
      ∀ ch ∈ splitAux maxSize heading ps cur cnt, 0 < ch.word_count := by
  intro ps
  induction ps with
  | nil =>
    intro cur cnt _ hinv ch hch
    cases cur with
    | nil => simp [splitAux] at hch
    | cons q qs =>
      simp only [splitAux, List.mem_singleton] at hch
      subst hch
      exact hinv (by simp)
  | cons p ps ih =>
    intro cur cnt hps hinv ch hch
    rw [splitAux] at hch
    by_cases hcl : maxSize < cnt + word_count p ∧ cur ≠ []
    · rw [if_pos hcl] at hch
      rcases List.mem_cons.mp hch with hch | hch
      · subst hch
        exact hinv hcl.2
      · exact ih [p] (word_count p) (fun q hq => hps q (List.mem_cons_of_mem _ hq))
          (fun _ => hps p (List.mem_cons_self _ _)) ch hch
    · rw [if_neg hcl] at hch
      refine ih (cur ++ [p]) (cnt + word_count p)
        (fun q hq => hps q (List.mem_cons_of_mem _ hq)) ?_ ch hch
      intro _
      have := hps p (List.mem_cons_self _ _)
      omega

/-- C2 (amended): a section whose content is empty is *not* skipped — it
produces a zero-word chunk (see the counterexample) — but whenever every
section of a structured document has at least one paragraph and every
paragraph has at least one word, `chunk_by_sections` never emits a chunk
with `word_count = 0`. -/
theorem chunk_by_sections_pos_word_count (c : SemanticChunker) (doc : Document)
    (sections : List Section) (hdoc : doc.structured_content = some sections)
    (hs : ∀ s ∈ sections, s.content ≠ [] ∧ ∀ p ∈ s.content, 0 < word_count p) :
    ∀ ch ∈ chunk_by_sections c doc, 0 < ch.word_count := by
  intro ch hch
  rw [chunk_by_sections, hdoc] at hch
  rcases List.mem_flatten.mp hch with ⟨l, hl, hchl⟩
  rcases List.mem_map.mp hl with ⟨s, hsmem, rfl⟩
  obtain ⟨hne, hpos⟩ := hs s hsmem
  rw [sectionChunks] at hchl
  by_cases hlong : c.max_chunk_size < word_count (joinSp s.content)
  · rw [if_pos hlong] at hchl
    exact splitAux_wc_pos c.max_chunk_size s.heading s.content [] 0 hpos
      (fun hc => absurd rfl hc) ch hchl
  · rw [if_neg hlong] at hchl
    simp only [List.mem_singleton] at hchl
    subst hchl
    simp only [word_count_joinSp]
    obtain ⟨p, rest, hpr⟩ := List.exists_cons_of_ne_nil hne
    have hp := hpos p (by rw [hpr]; exact List.mem_cons_self _ _)
    rw [hpr]
    simp only [List.map_cons, List.sum_cons]
    omega

/-- C2 (counterexample): a structured document with one section whose
content list is empty is not skipped: `chunk_by_sections` emits for it a
chunk with `word_count = 0` (and text `"H. "`). -/
theorem chunk_by_sections_zero_word_counterexample :
    ∃ ch ∈ chunk_by_sections ⟨100, 500⟩
        { content := [],
          structured_content := some [{ heading := "H".data, level := 1, content := [] }] },
      ch.word_count = 0 := by
  refine ⟨⟨"H. ".data, "H".data, some 1, 0, "section"⟩, ?_, rfl⟩
  decide

/-- The spec's "Fever" scenario section. -/
def feverSection : Section :=
  { heading := "Fever".data, level := 2,
    content := ["Adults should rest.".data,
      "See a doctor if fever exceeds three days.".data] }

/-- A document holding only the "Fever" section. -/
def feverDocument : Document :=
  { content := [], structured_content := some [feverSection] }

/-- C5: a section whose total word count stays within `max_chunk_size`
yields exactly one chunk of type `section`, with the heading-prefixed text
and the section's total word count; in particular the spec's "Fever"
scenario with `max_chunk_size = 500` yields exactly the expected chunk with
`word_count = 11`. -/
theorem section_within_limit_single_chunk :
    (∀ (mc Mc : Nat) (heading : Str) (level : Nat) (parts : List Str),
      (parts.map word_count).sum ≤ Mc →
      sectionChunks ⟨mc, Mc⟩ ⟨heading, level, parts⟩ =
        [⟨heading ++ '.' :: ' ' :: joinSp parts, heading, some level,
          (parts.map word_count).sum, "section"⟩]) ∧
    chunk_by_sections ⟨100, 500⟩ feverDocument =
      [⟨"Fever. Adults should rest. See a doctor if fever exceeds three days.".data,
        "Fever".data, some 2, 11, "section"⟩] := by
  constructor
  · intro mc Mc heading level parts h
    rw [sectionChunks]
    simp only [word_count_joinSp]
    rw [if_neg (by omega)]
  · decide

/-- C5 (witness): the general single-chunk theorem applied to the concrete
"Fever" section, whose total word count `11` is within `500`. -/
theorem section_within_limit_single_chunk_witness :
    sectionChunks ⟨100, 500⟩ ⟨"Fever".data, 2,
        ["Adults should rest.".data, "See a doctor if fever exceeds three days.".data]⟩ =
      [⟨"Fever".data ++ '.' :: ' ' ::
          joinSp ["Adults should rest.".data,
            "See a doctor if fever exceeds three days.".data],
        "Fever".data, some 2,
        ((["Adults should rest.".data,
           "See a doctor if fever exceeds three days.".data].map word_count).sum),
        "section"⟩] :=
  section_within_limit_single_chunk.1 100 500 ("Fever".data) 2
    ["Adults should rest.".data, "See a doctor if fever exceeds three days.".data]
    (by decide)

/-- C2 (witness): the amended positivity theorem applied to a concrete
structured document whose single paragraph has two words, at the concrete
chunk it emits. -/
theorem chunk_by_sections_pos_word_count_witness :
    0 < (⟨"H. one word".data, "H".data, some 1, 2, "section"⟩ : SChunk).word_count :=
  chunk_by_sections_pos_word_count ⟨100, 500⟩
    { content := [],
      structured_content :=
        some [{ heading := "H".data, level := 1, content := ["one word".data] }] }
    [{ heading := "H".data, level := 1, content := ["one word".data] }] rfl
    (by
      intro s hs
      simp only [List.mem_singleton] at hs
      subst hs
      refine ⟨by simp, ?_⟩
      intro p hp
      simp only [List.mem_singleton] at hp
      subst hp
      decide)
    ⟨"H. one word".data, "H".data, some 1, 2, "section"⟩ (by decide)

/-! ## Embedding pipeline (`backend/vectordb/advanced_embedder.py`) -/

/-- An embedding vector.  Element values are opaque to all pipeline logic,
so they are modelled as integers; the all-zero placeholder is
`List.replicate dimension 0`. -/
abbrev Vec := List Int

/-- The optional keys of a chunk's `metadata` dict as read by the
embedding pipeline. -/
structure ChunkMeta where
  url : Option Str
  title : Option Str
  scraped_at : Option Str
deriving DecidableEq, Repr

/-- The chunk dict fields read by the embedding pipeline: `chunk['text']`
is accessed unconditionally, every other key through `.get` with a
default. -/
structure PChunk where
  text : Str
  metadata : Option ChunkMeta
  word_count : Option Nat
  chunk_type : Option String
  heading : Option Str
deriving DecidableEq, Repr

/-- The metadata dict as returned by `enrich_metadata`: the incoming keys
plus `category`, `chunk_length`, `chunk_type` and the truncated
`heading`. -/
structure EnrichedMeta where
  url : Option Str
  title : Option Str
  scraped_at : Option Str
  category : String
  chunk_length : Nat
  chunk_type : String
  heading : Str
deriving DecidableEq, Repr

/-- The ordered `if/elif` chain of `enrich_metadata`: Python's
`pattern in url` substring test, first match wins, `"other"` when nothing
matches. -/
def categoryOf (url : Str) : String :=
  if "sjukdomar--besvar".data <:+: url then "diseases_conditions"
  else if "barn--gravid".data <:+: url then "children_pregnancy"
  else if "liv--hälsa".data <:+: url then "lifestyle_health"
  else if "hitta-vard".data <:+: url then "finding_care"
  else "other"

/-- Model of `AdvancedEmbedder.enrich_metadata(chunk)`. -/
def enrich_metadata (chunk : PChunk) : EnrichedMeta :=
  let md := chunk.metadata.getD ⟨none, none, none⟩
  let url := md.url.getD []
  { url := md.url, title := md.title, scraped_at := md.scraped_at,
    category := categoryOf url,
    chunk_length := chunk.word_count.getD 0,
    chunk_type := chunk.chunk_type.getD "unknown",
    heading := (chunk.heading.getD []).take 100 }

/-- C7: `enrich_metadata` assigns `category` by the ordered first-match
rule over the chunk's source URL exactly as claimed, a chunk without a URL
gets `"other"`, and the assignment depends only on the URL (the same URL
always yields the same category). -/
theorem enrich_metadata_category_rules :
    (∀ chunk : PChunk, (enrich_metadata chunk).category =
      categoryOf ((chunk.metadata.getD ⟨none, none, none⟩).url.getD [])) ∧
    (∀ url : Str,
      (("sjukdomar--besvar".data <:+: url) →
        categoryOf url = "diseases_conditions") ∧
      (¬ ("sjukdomar--besvar".data <:+: url) → ("barn--gravid".data <:+: url) →
        categoryOf url = "children_pregnancy") ∧
      (¬ ("sjukdomar--besvar".data <:+: url) → ¬ ("barn--gravid".data <:+: url) →
        ("liv--hälsa".data <:+: url) → categoryOf url = "lifestyle_health") ∧
      (¬ ("sjukdomar--besvar".data <:+: url) → ¬ ("barn--gravid".data <:+: url) →
        ¬ ("liv--hälsa".data <:+: url) → ("hitta-vard".data <:+: url) →
        categoryOf url = "finding_care") ∧
      (¬ ("sjukdomar--besvar".data <:+: url) → ¬ ("barn--gravid".data <:+: url) →
        ¬ ("liv--hälsa".data <:+: url) → ¬ ("hitta-vard".data <:+: url) →
        categoryOf url = "other")) ∧
    (∀ chunk : PChunk, (chunk.metadata.getD ⟨none, none, none⟩).url = none →
      (enrich_metadata chunk).category = "other") ∧
    (∀ c₁ c₂ : PChunk,
      (c₁.metadata.getD ⟨none, none, none⟩).url.getD [] =
        (c₂.metadata.getD ⟨none, none, none⟩).url.getD [] →
      (enrich_metadata c₁).category = (enrich_metadata c₂).category) := by
  refine ⟨fun chunk => rfl, fun url => ?_, ?_, ?_⟩
  · refine ⟨?_, ?_, ?_, ?_, ?_⟩
    · intro h1; simp [categoryOf, h1]
    · intro h1 h2; simp [categoryOf, h1, h2]
    · intro h1 h2 h3; simp [categoryOf, h1, h2, h3]
    · intro h1 h2 h3 h4; simp [categoryOf, h1, h2, h3, h4]
    · intro h1 h2 h3 h4; simp [categoryOf, h1, h2, h3, h4]
  · intro chunk hurl
    have : (enrich_metadata chunk).category = categoryOf [] := by
      simp [enrich_metadata, hurl]
    rw [this]
    decide
  · intro c₁ c₂ hurl
    show categoryOf _ = categoryOf _
    rw [hurl]

/-- C7 (witness): the first-match rules applied at a concrete URL that
matches the second pattern only. -/
theorem enrich_metadata_category_rules_witness :
    ¬ ("sjukdomar--besvar".data <:+: "https://www.1177.se/barn--gravid/x".data) ∧
    ("barn--gravid".data <:+: "https://www.1177.se/barn--gravid/x".data) ∧
    categoryOf "https://www.1177.se/barn--gravid/x".data = "children_pregnancy" := by
  refine ⟨by decide, by decide, ?_⟩
  exact (enrich_metadata_category_rules.2.1 "https://www.1177.se/barn--gravid/x".data).2.1
    (by decide) (by decide)

/-- The metadata dict attached to each uploaded vector:
`{**enrich_metadata(chunk), 'text': preview, 'full_text_length': len}`. -/
structure VectorMeta where
  base : EnrichedMeta
  text : Str
  full_text_length : Nat
deriving DecidableEq, Repr

/-- One persisted vector record of `upload_to_pinecone`. -/
structure VectorRec where
  id : String
  values : Vec
  metadata : VectorMeta
deriving DecidableEq, Repr

/-- The record-building loop of `upload_to_pinecone`
(`for i, (chunk, embedding) in enumerate(zip(chunks, embeddings))`),
carrying the running index `i`. -/
def prepareVectorsAux : Nat → List PChunk → List Vec → List VectorRec
  | i, chunk :: chunks, emb :: embs =>
    { id := "chunk_" ++ toString i, values := emb,
      metadata := { base := enrich_metadata chunk,
                    text := chunk.text.take 1000,
                    full_text_length := chunk.text.length } } ::
      prepareVectorsAux (i + 1) chunks embs
  | _, _, _ => []

/-- The pure vector-preparation phase of
`AdvancedEmbedder.upload_to_pinecone` (everything before the batched
upsert calls). -/
def prepare_vectors (chunks : List PChunk) (embeddings : List Vec) :
    List VectorRec :=
  prepareVectorsAux 0 chunks embeddings

theorem prepareVectorsAux_getElem? :
    ∀ (i₀ : Nat) (chunks : List PChunk) (embs : List Vec) (i : Nat)
      (c : PChunk) (e : Vec), chunks[i]? = some c → embs[i]? = some e →
      (prepareVectorsAux i₀ chunks embs)[i]? = some
        { id := "chunk_" ++ toString (i₀ + i), values := e,
          metadata := { base := enrich_metadata c,
                        text := c.text.take 1000,
                        full_text_length := c.text.length } } := by
  intro i₀ chunks
  induction chunks generalizing i₀ with
  | nil => intro embs i c e hc; simp at hc
  | cons c₀ cs ih =>
    intro embs i c e hc he
    cases embs with
    | nil => simp at he
    | cons e₀ es =>
      cases i with
      | zero =>
        simp only [List.getElem?_cons_zero, Option.some.injEq] at hc he
        subst hc; subst he
        simp [prepareVectorsAux]
      | succ n =>
        simp only [List.getElem?_cons_succ] at hc he
        have h := ih (i₀ + 1) es n c e hc he
        have harith : i₀ + 1 + n = i₀ + (n + 1) := by omega
        rw [harith] at h
        simpa [prepareVectorsAux] using h

/-- C9: every vector record built by `upload_to_pinecone` stores a `text`
preview that is a prefix of the chunk's text of at most 1000 characters, a
`heading` of at most 100 characters, and `full_text_length` equal to the
chunk text's true character length. -/
theorem prepare_vectors_truncation (chunks : List PChunk) (embs : List Vec)
    (i : Nat) (c : PChunk) (e : Vec)
    (hc : chunks[i]? = some c) (he : embs[i]? = some e) :
    ∃ v : VectorRec, (prepare_vectors chunks embs)[i]? = some v ∧
      v.metadata.text = c.text.take 1000 ∧
      v.metadata.text.length ≤ 1000 ∧
      v.metadata.text <+: c.text ∧
      v.metadata.full_text_length = c.text.length ∧
      v.metadata.base.heading.length ≤ 100 := by
  refine ⟨_, prepareVectorsAux_getElem? 0 chunks embs i c e hc he, rfl, ?_, ?_, rfl, ?_⟩
  · simp [List.length_take]
  · exact List.take_prefix 1000 c.text
  · show ((c.heading.getD []).take 100).length ≤ 100
    simp [List.length_take]

/-- C9 (witness): the truncation theorem applied to a concrete
chunk/embedding pair at index 0. -/
theorem prepare_vectors_truncation_witness :
    ∃ v : VectorRec,
      (prepare_vectors [⟨"hello".data, none, none, none, none⟩] [[0]])[0]? = some v ∧
      v.metadata.text = ("hello".data).take 1000 ∧
      v.metadata.text.length ≤ 1000 ∧
      v.metadata.text <+: "hello".data ∧
      v.metadata.full_text_length = ("hello".data).length ∧
      v.metadata.base.heading.length ≤ 100 :=
  prepare_vectors_truncation [⟨"hello".data, none, none, none, none⟩] [[0]] 0
    ⟨"hello".data, none, none, none, none⟩ [0] (by decide) (by decide)

/-- One iteration of the batch loop of `generate_embeddings_batch`: one
provider call on the whole batch, and on failure one provider call per
item, an item whose individual retry also fails contributing the all-zero
placeholder `[0.0] * self.dimension`.  The provider `f`
(`openai_client.embeddings.create`) returns `none` when the call raises;
on success `response.data` aligns positionally with the input, so the
single-item retry reads `response.data[0]`. -/
def processBatch (f : List Str → Option (List Vec)) (dim : Nat)
    (batch : List Str) : List Vec :=
  match f batch with
  | some vs => vs
  | none =>
    batch.map (fun text =>
      match f [text] with
      | some vs => vs.headD []
      | none => List.replicate dim 0)

/-- Model of `AdvancedEmbedder.generate_embeddings_batch(texts, batch_size)`:
`for i in range(0, len(texts), batch_size)` over successive batches,
appending each batch's embeddings. -/
def generate_embeddings_batch (f : List Str → Option (List Vec))
    (dim batch_size : Nat) (texts : List Str) : List Vec :=
  if h : 0 < batch_size ∧ texts ≠ [] then
    processBatch f dim (texts.take batch_size) ++
      generate_embeddings_batch f dim batch_size (texts.drop batch_size)
  else []
termination_by texts.length
decreasing_by
  have : texts.length ≠ 0 := fun hl => h.2 (List.eq_nil_of_length_eq_zero hl)
  simp only [List.length_drop]
  omega

theorem processBatch_length (f : List Str → Option (List Vec)) (dim : Nat)
    (batch : List Str)
    (hf : ∀ ts vs, f ts = some vs → vs.length = ts.length) :
    (processBatch f dim batch).length = batch.length := by
  rw [processBatch]
  cases hfb : f batch with
  | some vs => exact hf _ _ hfb
  | none => simp

theorem generate_embeddings_batch_length (f : List Str → Option (List Vec))
    (dim bs : Nat) (hbs : 0 < bs)
    (hf : ∀ ts vs, f ts = some vs → vs.length = ts.length) :
    ∀ texts : List Str,
      (generate_embeddings_batch f dim bs texts).length = texts.length := by
  intro texts
  rw [generate_embeddings_batch]
  by_cases ht : texts = []
  · simp [ht]
  · rw [dif_pos ⟨hbs, ht⟩]
    have hrec := generate_embeddings_batch_length f dim bs hbs hf (texts.drop bs)
    have hlen : 0 < texts.length := List.length_pos.mpr ht
    simp only [List.length_append, processBatch_length f dim _ hf, hrec,
      List.length_take, List.length_drop]
    omega
termination_by texts => texts.length
decreasing_by
  have : 0 < texts.length := List.length_pos.mpr ht
  simp only [List.length_drop]
  omega

/-- The batch that the loop of `generate_embeddings_batch` sends the
`i`-th text in: `texts[batch_size·(i // batch_size) : …+batch_size]`. -/
def batchOf (bs : Nat) (texts : List Str) (i : Nat) : List Str :=
  (texts.drop (bs * (i / bs))).take bs

theorem generate_embeddings_batch_getElem? (f : List Str → Option (List Vec))
    (dim bs : Nat) (hbs : 0 < bs)
    (hf : ∀ ts vs, f ts = some vs → vs.length = ts.length) :
    ∀ (texts : List Str) (i : Nat), i < texts.length →
      (generate_embeddings_batch f dim bs texts)[i]? =
        (processBatch f dim (batchOf bs texts i))[i % bs]? := by
  intro texts i hi
  have htne : texts ≠ [] := by
    intro h; rw [h] at hi; simp at hi
  rw [generate_embeddings_batch, dif_pos ⟨hbs, htne⟩]
  by_cases hlt : i < bs
  · have hdiv : i / bs = 0 := Nat.div_eq_of_lt hlt
    have hmod : i % bs = i := Nat.mod_eq_of_lt hlt
    have hl : i < (processBatch f dim (texts.take bs)).length := by
      rw [processBatch_length f dim _ hf, List.length_take]
      omega
    rw [List.getElem?_append_left hl, batchOf, hdiv, hmod, Nat.mul_zero,
      List.drop_zero]
  · have hge : bs ≤ i := Nat.le_of_not_lt hlt
    have hl : (processBatch f dim (texts.take bs)).length ≤ i := by
      rw [processBatch_length f dim _ hf, List.length_take]
      omega
    rw [List.getElem?_append_right hl]
    have hlen : (processBatch f dim (texts.take bs)).length = bs := by
      rw [processBatch_length f dim _ hf, List.length_take]
      omega
    rw [hlen]
    have hrec := generate_embeddings_batch_getElem? f dim bs hbs hf
      (texts.drop bs) (i - bs) (by simp only [List.length_drop]; omega)
    rw [hrec]
    have hbatch : batchOf bs (texts.drop bs) (i - bs) = batchOf bs texts i := by
      rw [batchOf, batchOf, List.drop_drop]
      have hdiv : i / bs = (i - bs) / bs + 1 := Nat.div_eq_sub_div hbs hge
      have : bs + bs * ((i - bs) / bs) = bs * (i / bs) := by
        rw [hdiv]; ring
      rw [this]
    have hmod : (i - bs) % bs = i % bs := (Nat.mod_eq_sub_mod hge).symm
    rw [hbatch, hmod]
termination_by texts i => texts.length
decreasing_by
  have : 0 < texts.length := by omega
  simp only [List.length_drop]
  omega

/-- C1: for every input text list and any mix of per-batch success and
failure (including failure of the individual retry),
`generate_embeddings_batch` returns exactly one embedding per input text,
in input order: position `i` carries the batch call's `i % batch_size`-th
embedding when its batch succeeded, the individual retry's embedding when
the batch failed but the retry succeeded, and the all-zero vector of the
configured dimension when the retry failed too — the item is never
dropped. -/
theorem generate_embeddings_batch_alignment (f : List Str → Option (List Vec))
    (hf : ∀ ts vs, f ts = some vs → vs.length = ts.length)
    (dim bs : Nat) (hbs : 0 < bs) (texts : List Str) :
    (generate_embeddings_batch f dim bs texts).length = texts.length ∧
    ∀ (i : Nat) (t : Str), texts[i]? = some t →
      ((∀ vs, f (batchOf bs texts i) = some vs →
        (generate_embeddings_batch f dim bs texts)[i]? = vs[i % bs]?) ∧
      (f (batchOf bs texts i) = none → ∀ vs, f [t] = some vs →
        (generate_embeddings_batch f dim bs texts)[i]? = some (vs.headD [])) ∧
      (f (batchOf bs texts i) = none → f [t] = none →
        (generate_embeddings_batch f dim bs texts)[i]? =
          some (List.replicate dim 0))) := by
  refine ⟨generate_embeddings_batch_length f dim bs hbs hf texts, ?_⟩
  intro i t ht
  have hi : i < texts.length := by
    by_contra hge
    rw [List.getElem?_eq_none (by omega)] at ht
    exact Option.noConfusion ht
  have hpos := generate_embeddings_batch_getElem? f dim bs hbs hf texts i hi
  have hmodlt : i % bs < bs := Nat.mod_lt _ hbs
  have hbatchget : (batchOf bs texts i)[i % bs]? = some t := by
    rw [batchOf, List.getElem?_take_of_lt hmodlt, List.getElem?_drop,
      Nat.div_add_mod, ht]
  refine ⟨?_, ?_, ?_⟩
  · intro vs hvs
    rw [hpos, processBatch, hvs]
  · intro hnone vs hvs
    rw [hpos, processBatch, hnone, List.getElem?_map, hbatchget,
      Option.map_some', hvs]
  · intro hnone hretry
    rw [hpos, processBatch, hnone, List.getElem?_map, hbatchget,
      Option.map_some', hretry]

/-- C1 (witness): the alignment theorem applied to a provider that embeds
every text as the empty vector, with the default batch size 100 and
dimension 1536, on a one-text input. -/
theorem generate_embeddings_batch_alignment_witness :
    (generate_embeddings_batch (fun ts => some (ts.map (fun _ => ([] : Vec))))
      1536 100 ["a".data]).length = 1 :=
  (generate_embeddings_batch_alignment
    (fun ts => some (ts.map (fun _ => ([] : Vec))))
    (by intro ts vs h; simp only [Option.some.injEq] at h; rw [← h]; simp)
    1536 100 (by omega) ["a".data]).1

/-! ## Plain per-chunk embedder (`backend/vectordb/embedder.py`) -/

/-- A chunk that `EmbeddingGenerator.embed_chunks` kept, with its
`chunk['embedding']` value attached. -/
structure EmbChunk where
  chunk : PChunk
  embedding : Vec
deriving DecidableEq, Repr

/-- Model of `EmbeddingGenerator.generate_embedding(text)`: a single provider call
whose `try/except` returns `None` on failure — the provider `g` models the
call together with that handler. -/
def generate_embedding (g : Str → Option Vec) (text : Str) : Option Vec :=
  g text

/-- Model of `EmbeddingGenerator.embed_chunks(chunks)`: embeds chunks one at a time
and keeps a chunk only when `if embedding:` is truthy — dropping both a
`None` result and an empty vector. -/
def embed_chunks (g : Str → Option Vec) : List PChunk → List EmbChunk
  | [] => []
  | c :: cs =>
    match generate_embedding g c.text with
    | some e =>
      if e.isEmpty then embed_chunks g cs else ⟨c, e⟩ :: embed_chunks g cs
    | none => embed_chunks g cs

/-- C10: `embed_chunks` drops failed chunks instead of substituting a
sentinel: its output (projected back to chunks) is a subsequence of its
input, every kept chunk carries the (non-null, non-empty) embedding the
provider returned for its text, and for a provider that always fails the
output is strictly shorter than the input. -/
theorem embed_chunks_drops_failures :
    (∀ (g : Str → Option Vec) (chunks : List PChunk),
      List.Sublist ((embed_chunks g chunks).map EmbChunk.chunk) chunks ∧
      ∀ e ∈ embed_chunks g chunks,
        g e.chunk.text = some e.embedding ∧ e.embedding ≠ []) ∧
    (embed_chunks (fun _ => none) [⟨[], none, none, none, none⟩]).length <
      ([⟨[], none, none, none, none⟩] : List PChunk).length := by
  refine ⟨?_, by decide⟩
  intro g chunks
  induction chunks with
  | nil => exact ⟨List.Sublist.refl [], by intro e he; simp [embed_chunks] at he⟩
  | cons c cs ih =>
    cases hg : generate_embedding g c.text with
    | some e =>
      by_cases he : e.isEmpty
      · have hred : embed_chunks g (c :: cs) = embed_chunks g cs := by
          simp [embed_chunks, hg, he]
        rw [hred]
        exact ⟨ih.1.cons c, ih.2⟩
      · have hred : embed_chunks g (c :: cs) = ⟨c, e⟩ :: embed_chunks g cs := by
          simp [embed_chunks, hg, he]
        rw [hred]
        refine ⟨?_, ?_⟩
        · simpa using ih.1.cons₂ c
        · intro x hx
          rcases List.mem_cons.mp hx with hx | hx
          · subst hx
            refine ⟨hg, ?_⟩
            intro habs
            exact he (by rw [show e = [] from habs]; rfl)
          · exact ih.2 x hx
    | none =>
      have hred : embed_chunks g (c :: cs) = embed_chunks g cs := by
        simp [embed_chunks, hg]
      rw [hred]
      exact ⟨ih.1.cons c, ih.2⟩

/-- C10 (witness): for a provider that embeds everything as `[1]`, the kept
chunk's stored embedding is exactly the provider's answer for its text. -/
theorem embed_chunks_drops_failures_witness :
    (fun _ : Str => some [(1 : Int)]) ([] : Str) = some [(1 : Int)] ∧
      ([(1 : Int)] : Vec) ≠ [] :=
  (embed_chunks_drops_failures.1 (fun _ => some [(1 : Int)])
      [⟨[], none, none, none, none⟩]).2
    ⟨⟨[], none, none, none, none⟩, [(1 : Int)]⟩ (by decide)

/-! ## Query engine (`backend/vectordb/query.py`) -/

/-- The metadata keys of one Pinecone match read by `search`. -/
structure MatchMeta where
  text : Str
  title : Str
  url : Str
deriving DecidableEq, Repr

/-- One entry of `results['matches']`. -/
structure QMatch where
  metadata : MatchMeta
  score : Int
deriving DecidableEq, Repr

/-- One element of the ranked list `search` returns. -/
structure QueryResult where
  text : Str
  title : Str
  url : Str
  score : Int
deriving DecidableEq, Repr

/-- Model of `HealthQueryEngine.search(query, top_k)`: embed the query
(`generate_query_embedding`), issue one index query, and map each match's
metadata into the public result shape.  Both provider calls are
parameters; `search` installs no handler, so a raised exception
(`Except.error`) propagates to the caller. -/
def search (embed : Str → Except String Vec)
    (queryIndex : Vec → Nat → Except String (List QMatch))
    (query : Str) (top_k : Nat) : Except String (List QueryResult) := do
  let query_embedding ← embed query
  let results ← queryIndex query_embedding top_k
  pure (results.map (fun m =>
    ⟨m.metadata.text, m.metadata.title, m.metadata.url, m.score⟩))

/-- The ranked list a caller obtains from a search outcome: a propagated
error carries no results. -/
def rankedResults (r : Except String (List QueryResult)) : List QueryResult :=
  match r with
  | Except.ok l => l
  | Except.error _ => []

/-- C8: when the embedding call or the index query fails, `search`
propagates that error — the caller receives the error together with an
empty ranked list — and a successful (`ok`) result can only arise when
both calls succeeded, so "no results" is always distinguishable from
"retrieval failed". -/
theorem search_propagates_failure (embed : Str → Except String Vec)
    (queryIndex : Vec → Nat → Except String (List QMatch))
    (query : Str) (top_k : Nat) :
    (∀ e, embed query = Except.error e →
      search embed queryIndex query top_k = Except.error e ∧
      rankedResults (search embed queryIndex query top_k) = []) ∧
    (∀ v e, embed query = Except.ok v → queryIndex v top_k = Except.error e →
      search embed queryIndex query top_k = Except.error e ∧
      rankedResults (search embed queryIndex query top_k) = []) ∧
    (∀ l, search embed queryIndex query top_k = Except.ok l →
      ∃ v ms, embed query = Except.ok v ∧ queryIndex v top_k = Except.ok ms ∧
        l = ms.map (fun m =>
          ⟨m.metadata.text, m.metadata.title, m.metadata.url, m.score⟩)) := by
  refine ⟨?_, ?_, ?_⟩
  · intro e he
    have hthis : search embed queryIndex query top_k = Except.error e := by
      unfold search
      rw [he]
      rfl
    exact ⟨hthis, by rw [hthis]; rfl⟩
  · intro v e hv he
    have hthis : search embed queryIndex query top_k = Except.error e := by
      unfold search
      rw [hv]
      show (List.map _ <$> queryIndex v top_k) = Except.error e
      rw [he]
      rfl
    exact ⟨hthis, by rw [hthis]; rfl⟩
  · intro l hl
    unfold search at hl
    cases hv : embed query with
    | error e =>
      rw [hv] at hl
      exact Except.noConfusion hl
    | ok v =>
      rw [hv] at hl
      replace hl : (List.map (fun m =>
          (⟨m.metadata.text, m.metadata.title, m.metadata.url, m.score⟩ :
            QueryResult)) <$> queryIndex v top_k) = Except.ok l := hl
      cases hq : queryIndex v top_k with
      | error e =>
        rw [hq] at hl
        exact Except.noConfusion hl
      | ok ms =>
        rw [hq] at hl
        refine ⟨v, ms, rfl, hq, ?_⟩
        rw [Except.map_ok] at hl
        exact (Except.ok.inj hl).symm

/-- C8 (witness): a failing embedding call on a concrete query propagates
its error through `search` and yields an empty ranked list. -/
theorem search_propagates_failure_witness :
    search (fun _ => Except.error "boom") (fun _ _ => Except.ok [])
        ("cold".data) 3 = Except.error "boom" ∧
      rankedResults (search (fun _ => Except.error "boom")
        (fun _ _ => Except.ok []) ("cold".data) 3) = [] :=
  (search_propagates_failure (fun _ => Except.error "boom")
      (fun _ _ => Except.ok []) ("cold".data) 3).1 "boom" rfl

end HalsaVeda
